import Mathlib

/-!
# Verification of the github-impact commit-mining and enrichment pipeline

This file gives a shallow embedding, in Lean 4, of the pure computational
core of the `github-impact` tool: the git-log changeset parser
(`gitChangesets` / `findChangesets`), the candidate-author construction of
`writeGitLog`, the retry policy (`retryAfter` and the `getUser` retry loop),
the affiliation merge (`supplementWithAffiliates`,
`member.loadFromAffiliates`), the unique-e-mail-slice operations
(`uniqueStringSlice.append`), the report writers (`writeReport`,
`generateReport`) and the counting-channel semaphores that bound API and git
concurrency.

Conventions of the embedding:
* `time.Time` values are modelled as `Int` epoch seconds (the `-utc` flag
  only changes rendering, never the instant, so it is not modelled).
* `bufio.Scanner` over the subprocess output is modelled by `Scanner`: a
  list of remaining lines plus the current token; a failed `Scan` leaves the
  token empty, exactly as `Text()` returns `""` after exhaustion.
* Go maps used as changeset dictionaries are modelled as association lists
  with insert-or-replace semantics; only their contents (not Go's random
  iteration order) are reasoned about.
* `strconv.Atoi` / `strconv.ParseInt` with the error ignored are modelled by
  `goAtoi`, which returns 0 on any syntax error.  (The 64-bit range clamping
  of `ParseInt` is not modelled; no claim depends on overflowing inputs.)
* Go string lengths are modelled as character counts; the guarded display
  names in the claims are ASCII, where the two coincide.
-/

namespace GithubImpact

/-- One file-change line of a changeset: `type changesetEntry`. -/
structure ChangesetEntry where
  add : Int
  del : Int
  path : String
  deriving DecidableEq, Repr

/-- A parsed commit: `type changeset`.  The older generation of the source
also carries running `Additions`/`Deletions` totals; the newer generation
omits them (they stay 0 there). -/
structure Changeset where
  short : String
  long : String
  subject : String
  authorName : String
  authorEmail : String
  authorDate : Int
  additions : Int
  deletions : Int
  changes : List ChangesetEntry
  deriving DecidableEq, Repr

/-- An employment window: `type dateRange` (`nil` pointers become `none`). -/
structure DateRange where
  fromDate : Option Int
  untilDate : Option Int
  deriving DecidableEq, Repr

/-- `bufio.Scanner` state: the lines not yet consumed and the current token
returned by `Text()`. -/
structure Scanner where
  rem : List String
  cur : String
  deriving DecidableEq, Repr

/-- `scan.Scan()`: advance to the next line.  After exhaustion `Scan`
returns `false` and `Text()` returns the empty string. -/
def Scanner.scan (sc : Scanner) : Bool × Scanner :=
  match sc.rem with
  | [] => (false, { rem := [], cur := "" })
  | l :: ls => (true, { rem := ls, cur := l })

/-- `scan.Text()`. -/
def Scanner.text (sc : Scanner) : String := sc.cur

/-- A scanner positioned before the first line of the given output. -/
def Scanner.ofLines (lines : List String) : Scanner :=
  { rem := lines, cur := "" }

/-- Go's `\s` character class (`[\t\n\f\r ]`). -/
def wsChar (c : Char) : Bool :=
  c = ' ' || c = '\t' || c = '\n' || c = '\r' || c = Char.ofNat 12

/-- One alternative of `(\-|\d+)`: a literal `-` or a maximal nonempty run
of decimal digits. -/
def numTok : List Char → Option (String × List Char)
  | '-' :: rest => some ("-", rest)
  | cs =>
    let ds := cs.takeWhile (·.isDigit)
    if ds.isEmpty then none
    else some (String.mk ds, cs.dropWhile (·.isDigit))

/-- The numstat line pattern `^(\-|\d+)\s+(\-|\d+)\s*([^\s].*)$` of
`addDelRX`, returning the three capture groups on a match.  A `none` result
models both `MatchString` returning `false` and `FindStringSubmatch`
returning fewer than 4 submatches. -/
def numstatMatch (s : String) : Option (String × String × String) :=
  match numTok s.toList with
  | none => none
  | some (g1, rest) =>
    if (rest.takeWhile wsChar).isEmpty then none
    else
      match numTok (rest.dropWhile wsChar) with
      | none => none
      | some (g2, rest2) =>
        match rest2.dropWhile wsChar with
        | [] => none
        | c :: cs => some (g1, g2, String.mk (c :: cs))

/-- `strconv.Atoi` / base-10 `strconv.ParseInt` with the error discarded:
any syntax error (including the `-` placeholder of binary files) yields 0. -/
def goAtoi (s : String) : Int :=
  match s.toList with
  | [] => 0
  | '-' :: rest =>
    if !rest.isEmpty && rest.all (·.isDigit) then
      -((rest.foldl (fun n c => n * 10 + (c.toNat - 48)) 0 : Nat) : Int)
    else 0
  | '+' :: rest =>
    if !rest.isEmpty && rest.all (·.isDigit) then
      ((rest.foldl (fun n c => n * 10 + (c.toNat - 48)) 0 : Nat) : Int)
    else 0
  | cs =>
    if cs.all (·.isDigit) then
      ((cs.foldl (fun n c => n * 10 + (c.toNat - 48)) 0 : Nat) : Int)
    else 0

/-- The changeset dictionaries `map[string]changeset`, as association
lists. -/
abbrev ChangesetMap := List (String × Changeset)

/-- Go map lookup `changesets[k]`. -/
def mapFind? (m : ChangesetMap) (k : String) : Option Changeset :=
  (m.find? (fun p => p.1 == k)).map (·.2)

/-- Go map assignment `changesets[k] = v`: replace the binding for an
existing key or add a new one. -/
def mapInsert : ChangesetMap → String → Changeset → ChangesetMap
  | [], k, v => [(k, v)]
  | p :: t, k, v => if p.1 == k then (k, v) :: t else p :: mapInsert t k v

/-- Reading the six header lines of one commit
(`cur.Short = scan.Text(); scan.Scan(); cur.Long = scan.Text(); ...`).
The short hash is taken from the scanner's current token without a
preceding `Scan`, exactly as in the source. -/
def readHeader (sc : Scanner) : Changeset × Scanner :=
  let short := sc.text
  let (_, sc) := sc.scan
  let long := sc.text
  let (_, sc) := sc.scan
  let subject := sc.text
  let (_, sc) := sc.scan
  let authorName := sc.text
  let (_, sc) := sc.scan
  let authorEmail := sc.text
  let (_, sc) := sc.scan
  let authorDate := goAtoi sc.text
  ({ short := short, long := long, subject := subject,
     authorName := authorName, authorEmail := authorEmail,
     authorDate := authorDate, additions := 0, deletions := 0,
     changes := [] }, sc)

/-- The inner numstat loop of the older `gitChangesets`
(`for scan.Text() != "" { ... }`), which also accumulates the
`Additions`/`Deletions` totals.  A line matching neither alternative of the
pattern is the fatal parse error of the source. -/
def readStatsOld (cur : String) (rem : List String) (cs : Changeset) :
    Except String (Changeset × Scanner) :=
  if cur = "" then .ok (cs, { rem := rem, cur := cur })
  else
    match numstatMatch cur with
    | none => .error ("error matching changeset add/del line: " ++ cur)
    | some (a, d, p) =>
      let entry : ChangesetEntry := { add := goAtoi a, del := goAtoi d, path := p }
      let cs := { cs with
        additions := cs.additions + entry.add,
        deletions := cs.deletions + entry.del,
        changes := cs.changes ++ [entry] }
      match rem with
      | [] => .ok (cs, { rem := [], cur := "" })
      | l :: ls => readStatsOld l ls cs

/-- The inner numstat loop of the newer `findChangesets`; identical control
flow but without the running totals (the newer `changeset` type has no
`Additions`/`Deletions` fields). -/
def readStats (cur : String) (rem : List String) (cs : Changeset) :
    Except String (Changeset × Scanner) :=
  if cur = "" then .ok (cs, { rem := rem, cur := cur })
  else
    match numstatMatch cur with
    | none => .error ("error matching changeset add/del line: " ++ cur)
    | some (a, d, p) =>
      let entry : ChangesetEntry := { add := goAtoi a, del := goAtoi d, path := p }
      let cs := { cs with changes := cs.changes ++ [entry] }
      match rem with
      | [] => .ok (cs, { rem := [], cur := "" })
      | l :: ls => readStats l ls cs

/-- The outer loop of the older `gitChangesets`.  `doNotScan` mirrors the
source variable: when it is `true` the loop does not advance the scanner
before reading a header, and — exactly as in the source, where the reset
`doNotScan = false` sits unreachably inside `if !doNotScan` — it is never
cleared once set.  The fuel argument stands in for the unbounded `for`
loop; every recursive call consumes at least one input line, so
`lines.length + 1` fuel is never exhausted. -/
def gitChangesetsLoop :
    Nat → Bool → Scanner → ChangesetMap → Except String ChangesetMap
  | 0, _, _, changesets => .ok changesets
  | fuel + 1, doNotScan, sc, changesets =>
    let step : Option Scanner :=
      if doNotScan then some sc
      else
        let (ok, sc') := sc.scan
        if ok then some sc' else none
    match step with
    | none => .ok changesets
    | some sc =>
      let (cur, sc) := readHeader sc
      let (ok, sc) := sc.scan
      if !ok then .ok changesets
      else if (numstatMatch sc.text).isNone then
        gitChangesetsLoop fuel true sc changesets
      else
        match readStatsOld sc.text sc.rem cur with
        | .error e => .error e
        | .ok (cur, sc) =>
          gitChangesetsLoop fuel doNotScan sc (mapInsert changesets cur.long cur)

/-- The older `gitChangesets`: parse one author's `git log --numstat`
output into the running changeset map.  Every parsed commit is stored
unconditionally (`changesets[cur.Long] = cur`). -/
def gitChangesets (lines : List String) (changesets : ChangesetMap) :
    Except String ChangesetMap :=
  gitChangesetsLoop (lines.length + 1) false (Scanner.ofLines lines) changesets

/-- The employment check of `findChangesets`: the commit is valid when some
window has a start date strictly before the author date and either no end
date or an end date strictly after it. -/
def validCommit (employed : List DateRange) (date : Int) : Bool :=
  employed.any fun e =>
    match e.fromDate with
    | none => false
    | some f =>
      decide (f < date) &&
        (match e.untilDate with
         | none => true
         | some u => decide (date < u))

/-- The outer loop of the newer `findChangesets`: the same parsing state
machine as `gitChangesetsLoop`, followed by the `knownChangesets` skip and
the employment-window filter before insertion. -/
def findChangesetsLoop (known : List String) (employed : List DateRange) :
    Nat → Bool → Scanner → ChangesetMap → Except String ChangesetMap
  | 0, _, _, changesets => .ok changesets
  | fuel + 1, doNotScan, sc, changesets =>
    let step : Option Scanner :=
      if doNotScan then some sc
      else
        let (ok, sc') := sc.scan
        if ok then some sc' else none
    match step with
    | none => .ok changesets
    | some sc =>
      let (cur, sc) := readHeader sc
      let (ok, sc) := sc.scan
      if !ok then .ok changesets
      else if (numstatMatch sc.text).isNone then
        findChangesetsLoop known employed fuel true sc changesets
      else
        match readStats sc.text sc.rem cur with
        | .error e => .error e
        | .ok (cur, sc) =>
          if known.contains cur.long then
            findChangesetsLoop known employed fuel doNotScan sc changesets
          else if validCommit employed cur.authorDate then
            findChangesetsLoop known employed fuel doNotScan sc
              (mapInsert changesets cur.long cur)
          else
            findChangesetsLoop known employed fuel doNotScan sc changesets

/-- A roster identity: `type member` (the fields the miner touches). -/
structure Member where
  login : String
  name : String
  ldapLogin : String
  emails : List String
  employed : List DateRange
  commits : List Changeset
  deriving DecidableEq, Repr

/-- The newer `member.findChangesets` applied to one author's output. -/
def Member.findChangesets (m : Member) (lines : List String)
    (known : List String) (changesets : ChangesetMap) :
    Except String ChangesetMap :=
  findChangesetsLoop known m.employed (lines.length + 1) false
    (Scanner.ofLines lines) changesets

/-- The newer `member.gitLog`, up to the final map-to-slice copy (whose
order follows Go's nondeterministic map iteration and is therefore left
out): seed `knownChangesets` with the hashes already cached in `m.Commits`,
then fold `findChangesets` over the identity's e-mail candidates. -/
def Member.gitLog (m : Member) (gitOut : String → List String) :
    Except String ChangesetMap :=
  let known := m.commits.map (·.long)
  m.emails.foldlM (fun changesets email =>
    m.findChangesets (gitOut email) known changesets) []

/-- The candidate author strings queried by the older `writeGitLog`, in
order: the primary e-mail when non-empty, then the display name when it is
at least eight characters long and contains a space.  The login query that
once sat between the two is commented out in the source and therefore does
not appear. -/
def writeGitLogCandidates (email name : String) : List String :=
  (if email ≠ "" then [email] else []) ++
    (if 8 ≤ name.length ∧ name.toList.contains ' ' then [name] else [])

/-- The changeset-collection phase of the older `writeGitLog`: starting
from an empty map, run `gitChangesets` for the primary e-mail when it is
non-empty, then for the display name when the ambiguity guard passes.
`gitOut author` stands for the `git log --author <author>` output. -/
def writeGitLogChangesets (email name : String)
    (gitOut : String → List String) : Except String ChangesetMap :=
  let changesets : ChangesetMap := []
  match (if email ≠ "" then gitChangesets (gitOut email) changesets
         else .ok changesets) with
  | .error e => .error e
  | .ok changesets =>
    match (if 8 ≤ name.length ∧ name.toList.contains ' ' then
             gitChangesets (gitOut name) changesets
           else .ok changesets) with
    | .error e => .error e
    | .ok changesets => .ok changesets

/-- The response metadata `retryAfter` consults: the `Retry-After` header
values and the HTTP status code (`*github.Response`, `none` when the call
produced no response). -/
structure GitHubResponse where
  retryAfterHeader : List String
  statusCode : Int
  deriving DecidableEq, Repr

/-- `retryAfter(rep, &cur)`: decide whether a failed call is retried and
update the retry counter.  A present `Retry-After` header always retries
(sleeping its value when positive); otherwise only a status code of exactly
500 retries after the fixed `apiRetryWait`; any other failure is final.
Sleeps only affect timing and are not modelled. -/
def retryAfter (rep : Option GitHubResponse) (cur : Int) (apiRetries : Int) :
    Bool × Int :=
  if cur > apiRetries then (false, cur)
  else
    match rep with
    | none => (false, cur)
    | some r =>
      if r.retryAfterHeader ≠ [] then (true, cur + 1)
      else if r.statusCode = 500 then (true, cur + 1)
      else (false, cur)

/-- The outcome of one attempted remote call, scripting the fake remote
endpoint: success, or an error together with the response metadata. -/
inductive APIResult where
  | ok : APIResult
  | err : Option GitHubResponse → String → APIResult
  deriving DecidableEq, Repr

/-- The retry loop shared by `getUser` / `member.loadFromGitHub`
(`for { waitForAPI(); call; doneWithAPI(); if err != nil { if retryAfter(...)
{ continue }; return err }; return ok }`), driven by the scripted attempt
outcomes.  `none` means the scripted outcomes ran out while the loop was
still retrying. -/
def getUserLoop (apiRetries : Int) :
    List APIResult → Int → Option (Except String Unit)
  | [], _ => none
  | .ok :: _, _ => some (.ok ())
  | .err rep msg :: rest, retries =>
    match retryAfter rep retries apiRetries with
    | (true, retries') => getUserLoop apiRetries rest retries'
    | (false, _) => some (.error msg)

/-- `getUser` with the retry counter initialised to zero. -/
def getUser (apiRetries : Int) (attempts : List APIResult) :
    Option (Except String Unit) :=
  getUserLoop apiRetries attempts 0

/-- One affiliation-table entry: `type devAffiliation` (the fields the
merge reads). -/
structure DevAffiliation where
  occurrences : Int
  name : String
  emails : List String
  deriving DecidableEq, Repr

/-- The affiliation table `map[string]*devAffiliation`, keyed by both names
and e-mail addresses, as an association list. -/
abbrev Affiliates := List (String × DevAffiliation)

/-- Go map lookup `affiliates[k]`. -/
def affFind? (a : Affiliates) (k : String) : Option DevAffiliation :=
  (a.find? (fun p => p.1 == k)).map (·.2)

/-- The enriched account of the older generation: `type userWrapper`
(embedding the profile's login, display name and primary e-mail, plus the
merged e-mail list). -/
structure UserWrapper where
  login : String
  name : String
  email : String
  emails : List String
  deriving DecidableEq, Repr

/-- The inner loop of both merge blocks of `supplementWithAffiliates`:
append each affiliate e-mail not yet in `knownEmails` to the user's e-mail
list, marking it known.  Returns the updated known set and e-mail list. -/
def addNovel (known : List String) (emails userEmails : List String) :
    List String × List String :=
  match emails with
  | [] => (known, userEmails)
  | v :: rest =>
    if known.contains v then addNovel known rest userEmails
    else addNovel (known ++ [v]) rest (userEmails ++ [v])

/-- One lookup-merge block of `supplementWithAffiliates` (the source
repeats it verbatim for the name-keyed and the e-mail-keyed lookup): when
the looked-up entry exists and its `Occurrences` count is 1, append its
novel e-mails; otherwise change nothing. -/
def mergeFromAffiliate (user : UserWrapper) (knownEmails : List String) :
    Option DevAffiliation → UserWrapper × List String
  | some a =>
    if a.occurrences = 1 then
      let (known, emails) := addNovel knownEmails a.emails user.emails
      ({ user with emails := emails }, known)
    else (user, knownEmails)
  | none => (user, knownEmails)

/-- The older `supplementWithAffiliates`: merge affiliation e-mails looked
up by display name (guarded by `len(name) >= 8 || strings.Contains(name,
" ")`), then repeat the lookup keyed by the primary e-mail.  Returns the
updated user and known-e-mail set. -/
def supplementWithAffiliates (user : UserWrapper) (knownEmails : List String)
    (affiliates : Affiliates) : UserWrapper × List String :=
  let (user, knownEmails) :=
    if 8 ≤ user.name.length ∨ user.name.toList.contains ' ' then
      mergeFromAffiliate user knownEmails (affFind? affiliates user.name)
    else (user, knownEmails)
  if user.email ≠ "" then
    mergeFromAffiliate user knownEmails (affFind? affiliates user.email)
  else (user, knownEmails)

/-- `uniqueStringSlice.append`: skip the empty string, skip a value already
present, otherwise append. -/
def uniqueStringSlice.append (u : List String) (s : String) : List String :=
  if s = "" then u
  else if u.contains s then u
  else u ++ [s]

/-- The invariant kept by the identity's e-mail list: no empty string and
no duplicate entry. -/
def emailsInv (u : List String) : Prop := "" ∉ u ∧ u.Nodup

/-- The newer `member.loadFromAffiliates`: find the first affiliation with
the member's name and occurrence count 1, and append its e-mails through
`uniqueStringSlice.append`.  (The source ranges over a Go map; the list
order here stands in for one such iteration order.) -/
def Member.loadFromAffiliates (m : Member) (devs : List DevAffiliation) :
    Member :=
  match devs.find? (fun a => a.name == m.name && a.occurrences == 1) with
  | some a => { m with emails := a.emails.foldl uniqueStringSlice.append m.emails }
  | none => m

/-- The successful tail of the newer `member.loadFromGitHub`: take the
fetched display name when none is cached and append the primary e-mail
through `uniqueStringSlice.append`. -/
def Member.loadFromGitHub (m : Member) (fetchedName fetchedEmail : String) :
    Member :=
  let m := if m.name = "" then { m with name := fetchedName } else m
  { m with emails := uniqueStringSlice.append m.emails fetchedEmail }

/-- The e-mail-merging step of the newer `member.loadFromLDAP`: record the
directory login and append the single discovered `mail` attribute through
`uniqueStringSlice.append`. -/
def Member.loadFromLDAPMail (m : Member) (samAccountName mail : String) :
    Member :=
  { m with ldapLogin := samAccountName,
           emails := uniqueStringSlice.append m.emails mail }

/-- The CSV header row written by the newer `writeReport`. -/
def csvReportHeader : List String :=
  ["login", "name", "emails", "commits", "additions", "deletions",
   "latestCommitSHA", "latestCommitDate", "issuesCreated", "issuesAssigned",
   "issuesMentioned", "pullRequestsCreated", "pullRequestsAssigned",
   "pullRequestsMentioned", "pullRequestsMerged"]

/-- Rendering of a timestamp; the concrete Go layout string is not
modelled, only that the rendered field is a function of the date. -/
def formatDate (d : Int) : String := toString d

/-- The accumulator of `member.csvFields`: running addition/deletion totals
and the latest commit seen so far (`none` models the zero `time.Time`,
which every realistic author date is `After`). -/
structure CsvAcc where
  additions : Int
  deletions : Int
  latestCommitSHA : String
  latestCommitDate : Option Int
  latestCommitDateString : String
  deriving DecidableEq, Repr

/-- The loop of `member.csvFields` over the member's commits. -/
def csvFieldsLoop (commits : List Changeset) (acc : CsvAcc) : CsvAcc :=
  match commits with
  | [] => acc
  | c :: rest =>
    let acc :=
      if match acc.latestCommitDate with
         | none => true
         | some d => decide (d < c.authorDate) then
        { acc with latestCommitSHA := c.short,
                   latestCommitDate := some c.authorDate,
                   latestCommitDateString := formatDate c.authorDate }
      else acc
    let acc := c.changes.foldl
      (fun acc ce =>
        { acc with additions := acc.additions + ce.add,
                   deletions := acc.deletions + ce.del }) acc
    csvFieldsLoop rest acc

/-- The newer `member.csvFields`: one CSV row for the member (the trailing
issue/pull-request columns are emitted empty in the source). -/
def csvFields (m : Member) : List String :=
  let acc := csvFieldsLoop m.commits
    { additions := 0, deletions := 0, latestCommitSHA := "",
      latestCommitDate := none, latestCommitDateString := "" }
  [m.login, m.name, String.intercalate "|" m.emails,
   toString m.commits.length, toString acc.additions, toString acc.deletions,
   acc.latestCommitSHA, acc.latestCommitDateString,
   "", "", "", "", "", "", ""]

/-- The member loop of the newer `writeReport`: every member's row goes to
the stdout CSV writer; the row is copied to the report-file writer only
when the member has at least one commit (`if len(m.Commits) == 0 {
continue }`).  Returns (stdout rows, report-file rows) without headers. -/
def writeReportLoop : List Member → List (List String) × List (List String)
  | [] => ([], [])
  | m :: rest =>
    let fields := csvFields m
    let (stdoutRows, fileRows) := writeReportLoop rest
    (fields :: stdoutRows,
     if m.commits.length = 0 then fileRows else fields :: fileRows)

/-- The newer `writeReport`: header first on both writers, then the member
loop, for the stream of members received before the channel closes. -/
def writeReport (members : List Member) :
    List (List String) × List (List String) :=
  let (stdoutRows, fileRows) := writeReportLoop members
  (csvReportHeader :: stdoutRows, csvReportHeader :: fileRows)

/-- A report entry as handled by the older `generateReport` (the fields the
error-propagation argument needs). -/
structure ReportEntry where
  login : String
  name : String
  email : String
  additions : Int
  deletions : Int
  deriving DecidableEq, Repr

/-- One event observed by the `generateReport` select loop: an error
surfaced by some per-identity task, a finished entry, or the closing of the
entries channel. -/
inductive CacheEvent where
  | err : String → CacheEvent
  | entry : ReportEntry → CacheEvent
  | closed : CacheEvent
  deriving DecidableEq, Repr

/-- The select loop of the older `generateReport`, over the sequence in
which the events are received: entries are written until the first error
(which is returned, abandoning everything after it) or until the entries
channel closes.  Returns the entries written and the surfaced error, if
any. -/
def generateReport : List CacheEvent → List ReportEntry × Option String
  | [] => ([], none)
  | .err msg :: _ => ([], some msg)
  | .closed :: _ => ([], none)
  | .entry e :: rest =>
    let (written, result) := generateReport rest
    (e :: written, result)

/-- The tail of `main`: `generateReport`'s error, when present, is printed
to stderr and the process exits with status 1.  Returns the written
entries, the printed error and the exit code. -/
def mainRun (events : List CacheEvent) :
    List ReportEntry × Option String × Nat :=
  let (written, result) := generateReport events
  match result with
  | some msg => (written, some msg, 1)
  | none => (written, none, 0)

/-- The occupancies of the two counting-channel semaphores: `chanAPI`
(capacity `api-max`) and `chanGit` (capacity `git-max`). -/
structure PoolState where
  api : Nat
  git : Nat
  deriving DecidableEq, Repr

/-- `waitForAPI` (`chanAPI <- struct{}{}`): the send completes only while
the buffered channel holds fewer than `apiMax` tokens; otherwise the caller
blocks and no transition happens. -/
def waitForAPI (apiMax : Nat) (s : PoolState) : Option PoolState :=
  if s.api < apiMax then some { s with api := s.api + 1 } else none

/-- `doneWithAPI` (`<-chanAPI`, after the `apiWait` sleep): the receive
completes only while a token is present. -/
def doneWithAPI (s : PoolState) : Option PoolState :=
  if 0 < s.api then some { s with api := s.api - 1 } else none

/-- `waitForGit` (`chanGit <- struct{}{}`). -/
def waitForGit (gitMax : Nat) (s : PoolState) : Option PoolState :=
  if s.git < gitMax then some { s with git := s.git + 1 } else none

/-- `doneWithGit` (`<-chanGit`). -/
def doneWithGit (s : PoolState) : Option PoolState :=
  if 0 < s.git then some { s with git := s.git - 1 } else none

/-- The semaphore states reachable from the empty pools through any
interleaving of the four channel operations.  Every remote call holds an
API token for its whole duration (`waitForAPI` precedes the call,
`doneWithAPI` follows it) and every git subprocess holds a git token
(acquired at the top of `git`, released by the returned `done` closure), so
calls in flight are counted by the occupancies. -/
inductive PoolReachable (apiMax gitMax : Nat) : PoolState → Prop
  | init : PoolReachable apiMax gitMax { api := 0, git := 0 }
  | acquireAPI {s s'} : PoolReachable apiMax gitMax s →
      waitForAPI apiMax s = some s' → PoolReachable apiMax gitMax s'
  | releaseAPI {s s'} : PoolReachable apiMax gitMax s →
      doneWithAPI s = some s' → PoolReachable apiMax gitMax s'
  | acquireGit {s s'} : PoolReachable apiMax gitMax s →
      waitForGit gitMax s = some s' → PoolReachable apiMax gitMax s'
  | releaseGit {s s'} : PoolReachable apiMax gitMax s →
      doneWithGit s = some s' → PoolReachable apiMax gitMax s'

/-! ## Shared lemmas about the changeset dictionary -/

theorem mapFind?_mapInsert_self (m : ChangesetMap) (k : String) (v : Changeset) :
    mapFind? (mapInsert m k v) k = some v := by
  induction m with
  | nil => simp [mapInsert, mapFind?, List.find?]
  | cons p t ih =>
    by_cases h : p.1 = k
    · simp [mapInsert, mapFind?, List.find?, h]
    · have hb : (p.1 == k) = false := by simp [h]
      simpa [mapInsert, mapFind?, List.find?, hb] using ih

theorem mem_mapInsert {kv : String × Changeset} (m : ChangesetMap)
    (k : String) (v : Changeset) (h : kv ∈ mapInsert m k v) :
    kv ∈ m ∨ kv = (k, v) := by
  induction m with
  | nil => simpa [mapInsert] using h
  | cons p t ih =>
    by_cases hpk : p.1 = k
    · simp only [mapInsert, hpk, beq_self_eq_true, if_true] at h
      rcases List.mem_cons.mp h with h | h
      · exact Or.inr h
      · exact Or.inl (List.mem_cons_of_mem _ h)
    · have hb : (p.1 == k) = false := by simp [hpk]
      simp only [mapInsert, hb, Bool.false_eq_true, if_false] at h
      rcases List.mem_cons.mp h with h | h
      · exact Or.inl (h ▸ List.mem_cons_self _ _)
      · rcases ih h with h | h
        · exact Or.inl (List.mem_cons_of_mem _ h)
        · exact Or.inr h

theorem keys_mapInsert_subset {a : String} (m : ChangesetMap)
    (k : String) (v : Changeset) (h : a ∈ (mapInsert m k v).map (·.1)) :
    a ∈ m.map (·.1) ∨ a = k := by
  rcases List.mem_map.mp h with ⟨kv, hkv, rfl⟩
  rcases mem_mapInsert m k v hkv with h | h
  · exact Or.inl (List.mem_map_of_mem _ h)
  · exact Or.inr (by rw [h])

theorem keys_mapInsert_nodup (m : ChangesetMap) (k : String) (v : Changeset)
    (h : (m.map (·.1)).Nodup) : ((mapInsert m k v).map (·.1)).Nodup := by
  induction m with
  | nil => simp [mapInsert]
  | cons p t ih =>
    rw [List.map_cons, List.nodup_cons] at h
    by_cases hpk : p.1 = k
    · rw [mapInsert]
      simp only [hpk, beq_self_eq_true, if_true, List.map_cons, List.nodup_cons]
      exact ⟨hpk ▸ h.1, h.2⟩
    · have hb : (p.1 == k) = false := by simp [hpk]
      rw [mapInsert]
      simp only [hb, Bool.false_eq_true, if_false, List.map_cons, List.nodup_cons]
      refine ⟨fun hmem => ?_, ih h.2⟩
      rcases keys_mapInsert_subset t k v hmem with hmem | hmem
      · exact h.1 hmem
      · exact hpk hmem

theorem gitChangesetsLoop_keys_nodup :
    ∀ (fuel : Nat) (doNotScan : Bool) (sc : Scanner) (acc res : ChangesetMap),
      (acc.map (·.1)).Nodup →
      gitChangesetsLoop fuel doNotScan sc acc = .ok res →
      (res.map (·.1)).Nodup := by
  intro fuel
  induction fuel with
  | zero =>
    intro d sc acc res hacc h
    rw [gitChangesetsLoop] at h
    cases h
    exact hacc
  | succ fuel ih =>
    intro d sc acc res hacc h
    rw [gitChangesetsLoop] at h
    split at h
    · cases h; exact hacc
    · rename_i sc' heq
      rcases hp : readHeader sc' with ⟨cur, sc1⟩
      rw [hp] at h
      dsimp only at h
      rcases hq : sc1.scan with ⟨ok, sc2⟩
      rw [hq] at h
      dsimp only at h
      cases ok
      · rw [Bool.not_false, if_pos rfl] at h
        cases h; exact hacc
      · rw [Bool.not_true, if_neg (by simp)] at h
        by_cases hn : (numstatMatch sc2.text).isNone
        · rw [if_pos hn] at h
          exact ih _ _ _ _ hacc h
        · rw [if_neg hn] at h
          rcases hr : readStatsOld sc2.text sc2.rem cur with e | ⟨cur2, sc3⟩
          · rw [hr] at h; cases h
          · rw [hr] at h
            exact ih _ _ _ _ (keys_mapInsert_nodup _ _ _ hacc) h

theorem exceptBindOk {α β γ : Type} (a : α) (f : α → Except γ β) :
    (Except.ok a : Except γ α) >>= f = f a := rfl

theorem exceptBindError {α β γ : Type} (e : γ) (f : α → Except γ β) :
    (Except.error e : Except γ α) >>= f = Except.error e := rfl

theorem gitChangesets_keys_nodup (lines : List String) (acc res : ChangesetMap)
    (hacc : (acc.map (·.1)).Nodup) (h : gitChangesets lines acc = .ok res) :
    (res.map (·.1)).Nodup :=
  gitChangesetsLoop_keys_nodup _ _ _ _ _ hacc h

theorem writeGitLogChangesets_keys_nodup (email name : String)
    (gitOut : String → List String) (m : ChangesetMap)
    (h : writeGitLogChangesets email name gitOut = .ok m) :
    (m.map (·.1)).Nodup := by
  unfold writeGitLogChangesets at h
  dsimp only at h
  rcases he : (if email ≠ "" then gitChangesets (gitOut email) ([] : ChangesetMap)
      else .ok []) with e | c1
  · rw [he] at h
    cases h
  · rw [he] at h
    dsimp only at h
    have hc1 : (c1.map (·.1)).Nodup := by
      by_cases hemail : email ≠ ""
      · rw [if_pos hemail] at he
        exact gitChangesets_keys_nodup _ _ _ (by simp) he
      · rw [if_neg hemail] at he
        cases he
        simp
    rcases hn : (if 8 ≤ name.length ∧ name.toList.contains ' ' then
        gitChangesets (gitOut name) c1 else .ok c1) with e | c2
    · rw [hn] at h
      cases h
    · rw [hn] at h
      have hc2 : (c2.map (·.1)).Nodup := by
        by_cases hname : 8 ≤ name.length ∧ name.toList.contains ' '
        · rw [if_pos hname] at hn
          exact gitChangesets_keys_nodup _ _ _ hc1 hn
        · rw [if_neg hname] at hn
          cases hn
          exact hc1
      cases h
      exact hc2

/-- The three-commit log whose first commit touches zero files: commit
`a1long` has no numstat block and is immediately followed by commit
`b1long`'s header, after which commit `c1long` follows normally. -/
def zeroFileLog : List String :=
  ["a1", "a1long", "subjA", "A Name", "a@x", "1000",
   "b1", "b1long", "subjB", "B Name", "b@x", "2000",
   "1\t2\tfile.txt", "",
   "c1", "c1long", "subjC", "C Name", "c@x", "3000",
   "3\t4\tg.txt", ""]

/-- C1: evaluating the parser on a three-commit log whose first commit
touches zero files.  The claim requires the zero-file commit and every
commit after it to be parsed with their header fields intact; instead the
zero-file commit `a1long` is never inserted into the changeset map (the
`continue` taken when the numstat pattern fails skips the insertion), and
because `doNotScan` is never reset the parser misaligns after the next
commit, so `c1long` is lost as well: the map ends up with the single entry
`b1long`. -/
theorem gitChangesets_zero_file_commit_lost :
    (gitChangesets zeroFileLog []).map
      (fun m => (mapFind? m "a1long", mapFind? m "c1long",
        (mapFind? m "b1long").isSome, m.length)) =
      .ok (none, none, true, 1) := by rfl

/-- A git-log script where the primary-e-mail candidate `a@b.c` and the
display-name candidate `Alice Liddell` both return the same commit
`H1long`, parsed with different metadata (subjects `S1` versus `S2`). -/
def overlapOut : String → List String := fun author =>
  if author = "a@b.c" then
    ["h1", "H1long", "S1", "Alice", "a@b.c", "1000", "1\t2\tf", ""]
  else if author = "Alice Liddell" then
    ["h1", "H1long", "S2", "Alice L", "a2@b.c", "1000", "1\t2\tf", ""]
  else []

/-- The changeset the merged map actually holds for `H1long` after mining
both overlapping candidates: the occurrence parsed for the *later*
candidate. -/
def overlapCS : Changeset :=
  { short := "h1", long := "H1long", subject := "S2", authorName := "Alice L",
    authorEmail := "a2@b.c", authorDate := 1000, additions := 1,
    deletions := 2, changes := [{ add := 1, del := 2, path := "f" }] }

/-- The merged changeset map of the overlapping-candidates run. -/
def overlapRes : ChangesetMap := [("H1long", overlapCS)]

/-- C2 counterexample: mining the two overlapping candidates yields exactly
one entry for `H1long`, but its metadata (subject `S2`) comes from the
occurrence parsed for the *later* candidate, not the earlier one (`S1`) as
the claim states: `changesets[cur.Long] = cur` overwrites, and the
`knownChangesets` guard only covers hashes cached before the run. -/
theorem writeGitLog_overlap_first_seen_fails :
    (writeGitLogChangesets "a@b.c" "Alice Liddell" overlapOut).map
      (fun m => (m.length, (mapFind? m "H1long").map (·.subject))) =
      .ok (1, some "S2") := by rfl

/-- C2 (amended): the merged changeset map holds exactly one entry per long
hash (its key list is duplicate-free for every mining run), and an insert
for an already-present hash replaces that entry's metadata — so the
occurrence parsed last, not first, is the one retained. -/
theorem writeGitLog_dedup_unique_entry_overwrite :
    (∀ email name gitOut m,
      writeGitLogChangesets email name gitOut = .ok m →
      (m.map (·.1)).Nodup) ∧
    (∀ m k v, mapFind? (mapInsert m k v) k = some v) :=
  ⟨writeGitLogChangesets_keys_nodup, fun m k v => mapFind?_mapInsert_self m k v⟩

/-- Witness for C2's amended theorem at the overlapping-candidates run. -/
theorem writeGitLog_dedup_unique_entry_overwrite_witness :
    (writeGitLogChangesets "a@b.c" "Alice Liddell" overlapOut =
        .ok overlapRes ∧
      (overlapRes.map (·.1)).Nodup) ∧
    mapFind? (mapInsert [] "H1long" overlapCS) "H1long" = some overlapCS :=
  ⟨⟨by rfl,
    writeGitLog_dedup_unique_entry_overwrite.1 "a@b.c" "Alice Liddell"
      overlapOut overlapRes (by rfl)⟩,
   writeGitLog_dedup_unique_entry_overwrite.2 [] "H1long" overlapCS⟩

/-- A git-log script for the user with login `alice`, primary e-mail
`a@b.c` and display name `Alice Liddell`: each candidate string would
return a distinct commit, so the mined map shows which candidates were
actually queried. -/
def c3Out : String → List String := fun author =>
  if author = "alice" then
    ["l1", "L1long", "SL", "alice", "al@x", "500", "1\t1\tf", ""]
  else if author = "a@b.c" then
    ["e1", "E1long", "SE", "Alice", "a@b.c", "1000", "2\t2\tg", ""]
  else if author = "Alice Liddell" then
    ["n1", "N1long", "SN", "Alice Liddell", "a@b.c", "1500", "3\t3\th", ""]
  else []

/-- C3 counterexample: for that user the claim's candidate list begins with
the login `alice`; the code's candidate list does not contain the login at
all (the `gitChangesets(ctx, login, login, ...)` call is commented out in
`writeGitLog`), so the commit only reachable through the login is absent
from the merged map while the e-mail and name commits are present. -/
theorem writeGitLog_login_not_queried :
    "alice" ∉ writeGitLogCandidates "a@b.c" "Alice Liddell" ∧
    (writeGitLogChangesets "a@b.c" "Alice Liddell" c3Out).map
      (fun m => (mapFind? m "L1long", (mapFind? m "E1long").isSome,
        (mapFind? m "N1long").isSome)) = .ok (none, true, true) :=
  ⟨by decide, by rfl⟩

/-- C3 (amended): the ordered candidate list actually queried against the
git log is the primary e-mail when non-empty, then the display name when it
is at least 8 characters and contains a space; `writeGitLog`'s mining is
exactly the fold of `gitChangesets` over that list, every queried candidate
is the e-mail or the name (never the login as such), and when the e-mail is
non-empty it is queried first. -/
theorem writeGitLogCandidates_email_then_name :
    (∀ email name gitOut,
      writeGitLogChangesets email name gitOut =
        (writeGitLogCandidates email name).foldlM
          (fun m a => gitChangesets (gitOut a) m) []) ∧
    (∀ email name c, c ∈ writeGitLogCandidates email name →
      c = email ∨ c = name) ∧
    (∀ email name, email ≠ "" →
      (writeGitLogCandidates email name).head? = some email) := by
  refine ⟨fun email name gitOut => ?_, fun email name c hc => ?_,
    fun email name he => ?_⟩
  · by_cases he : email ≠ ""
    · by_cases hn : 8 ≤ name.length ∧ name.toList.contains ' '
      · simp only [writeGitLogChangesets, writeGitLogCandidates, if_pos he,
          if_pos hn, List.foldlM]
        rcases h1 : gitChangesets (gitOut email) ([] : ChangesetMap) with e | c1
        · simp only [h1]
          rfl
        · simp only [h1, exceptBindOk]
          rcases h2 : gitChangesets (gitOut name) c1 with e | c2 <;>
            (simp only [h2, exceptBindOk, exceptBindError]; try rfl)
      · simp only [writeGitLogChangesets, writeGitLogCandidates, if_pos he,
          if_neg hn, List.append_nil, List.foldlM]
        rcases h1 : gitChangesets (gitOut email) ([] : ChangesetMap) with e | c1 <;>
          simp only [h1] <;> rfl
    · by_cases hn : 8 ≤ name.length ∧ name.toList.contains ' '
      · simp only [writeGitLogChangesets, writeGitLogCandidates, if_neg he,
          if_pos hn, List.nil_append, List.foldlM]
        rcases h2 : gitChangesets (gitOut name) ([] : ChangesetMap) with e | c2 <;>
          simp only [h2] <;> rfl
      · simp only [writeGitLogChangesets, writeGitLogCandidates, if_neg he,
          if_neg hn, List.append_nil, List.foldlM]
        rfl
  · by_cases he : email ≠ "" <;> by_cases hn : 8 ≤ name.length ∧ name.toList.contains ' ' <;>
      simp [writeGitLogCandidates, he, hn] at hc <;> tauto
  · by_cases hn : 8 ≤ name.length ∧ name.toList.contains ' ' <;>
      simp [writeGitLogCandidates, he, hn]

/-- Witness for C3's amended theorem at a concrete candidate pair. -/
theorem writeGitLogCandidates_email_then_name_witness :
    (writeGitLogChangesets "x@y" "Ada Lovelace" (fun _ => []) =
      (writeGitLogCandidates "x@y" "Ada Lovelace").foldlM
        (fun m a => gitChangesets ((fun _ => ([] : List String)) a) m) []) ∧
    ("x@y" = "x@y" ∨ "x@y" = "Ada Lovelace") ∧
    (writeGitLogCandidates "x@y" "Ada Lovelace").head? = some "x@y" :=
  ⟨writeGitLogCandidates_email_then_name.1 "x@y" "Ada Lovelace" (fun _ => []),
   writeGitLogCandidates_email_then_name.2.1 "x@y" "Ada Lovelace" "x@y"
     (by decide),
   writeGitLogCandidates_email_then_name.2.2 "x@y" "Ada Lovelace"
     (by decide)⟩

/-- C4 (amended): every changeset retained by a `findChangesets` mining
pass either was already in the running map or passed the employment filter:
its author date lies strictly inside some employment window with a start
date, and its long hash was not among the previously known changesets.  In
particular, when the identity has at least one window a commit outside all
windows is excluded — but when the identity has no employment data at all,
`validCommit` never holds and every commit is excluded as well. -/
theorem findChangesetsLoop_retained_only_valid :
    ∀ (known : List String) (employed : List DateRange) (fuel : Nat)
      (doNotScan : Bool) (sc : Scanner) (acc res : ChangesetMap),
      findChangesetsLoop known employed fuel doNotScan sc acc = .ok res →
      ∀ kv ∈ res, kv ∈ acc ∨
        (validCommit employed kv.2.authorDate = true ∧ kv.2.long ∉ known ∧
          kv.1 = kv.2.long) := by
  intro known employed fuel
  induction fuel with
  | zero =>
    intro d sc acc res h kv hkv
    rw [findChangesetsLoop] at h
    cases h
    exact Or.inl hkv
  | succ fuel ih =>
    intro d sc acc res h kv hkv
    rw [findChangesetsLoop] at h
    split at h
    · cases h; exact Or.inl hkv
    · rename_i sc' heq
      rcases hp : readHeader sc' with ⟨cur, sc1⟩
      rw [hp] at h
      dsimp only at h
      rcases hq : sc1.scan with ⟨ok, sc2⟩
      rw [hq] at h
      dsimp only at h
      cases ok
      · rw [Bool.not_false, if_pos rfl] at h
        cases h; exact Or.inl hkv
      · rw [Bool.not_true, if_neg (by simp)] at h
        by_cases hn : (numstatMatch sc2.text).isNone
        · rw [if_pos hn] at h
          exact ih _ _ _ _ h kv hkv
        · rw [if_neg hn] at h
          rcases hr : readStats sc2.text sc2.rem cur with e | ⟨cur2, sc3⟩
          · rw [hr] at h; cases h
          · rw [hr] at h
            dsimp only at h
            by_cases hk : known.contains cur2.long = true
            · rw [if_pos hk] at h
              exact ih _ _ _ _ h kv hkv
            · rw [if_neg hk] at h
              by_cases hv : validCommit employed cur2.authorDate = true
              · rw [if_pos hv] at h
                rcases ih _ _ _ _ h kv hkv with hmem | hnew
                · rcases mem_mapInsert _ _ _ hmem with hmem | hkv2
                  · exact Or.inl hmem
                  · subst hkv2
                    refine Or.inr ⟨hv, ?_, rfl⟩
                    simpa using hk
                · exact Or.inr hnew
              · rw [if_neg hv] at h
                exact ih _ _ _ _ h kv hkv

/-- A well-formed one-commit git-log output, author date 1000. -/
def c4Lines : List String :=
  ["a1", "a1long", "s", "N", "e@x", "1000", "1\t2\tf", ""]

/-- C4 counterexample: an identity with no employment data at all mines a
valid one-commit log.  The claim requires that no commit be filtered out in
this case; the code's filter accepts a commit only when some employment
window validates it, so with no windows the retained changeset map is
empty and the commit is lost from the list and the totals. -/
theorem findChangesets_no_employment_drops_all :
    ({ login := "x", name := "", ldapLogin := "", emails := ["e@x"],
       employed := [], commits := [] } : Member).gitLog
      (fun _ => c4Lines) = .ok [] := by rfl

/-- The single employment window used by the C4 witness. -/
def c4Window : List DateRange := [{ fromDate := some 500, untilDate := none }]

/-- The changeset parsed from `c4Lines` by the newer parser. -/
def c4CS : Changeset :=
  { short := "a1", long := "a1long", subject := "s", authorName := "N",
    authorEmail := "e@x", authorDate := 1000, additions := 0, deletions := 0,
    changes := [{ add := 1, del := 2, path := "f" }] }

/-- The retained map of the C4 witness run. -/
def c4Res : ChangesetMap := [("a1long", c4CS)]

/-- Witness for C4's amended theorem at a concrete mining pass. -/
theorem findChangesetsLoop_retained_only_valid_witness :
    findChangesetsLoop [] c4Window (c4Lines.length + 1) false
        (Scanner.ofLines c4Lines) [] = .ok c4Res ∧
    (("a1long", c4CS) ∈ ([] : ChangesetMap) ∨
      (validCommit c4Window c4CS.authorDate = true ∧
        c4CS.long ∉ ([] : List String) ∧ "a1long" = c4CS.long)) :=
  ⟨by rfl,
   findChangesetsLoop_retained_only_valid [] c4Window (c4Lines.length + 1)
     false (Scanner.ofLines c4Lines) [] c4Res (by rfl) ("a1long", c4CS)
     (by simp [c4Res])⟩

/-- C5 counterexample: a call fails once with a plain HTTP 502 response (a
5xx-class server fault, no `Retry-After` header) and would succeed on the
next attempt, with the retry counter at 0 and a cap of 5.  The claim
requires the 5xx failure to be retried after the fixed backoff; the code
retries only on status exactly 500, so the error is returned
immediately. -/
theorem retryAfter_502_not_retried :
    getUser 5 [.err (some { retryAfterHeader := [], statusCode := 502 })
        "server fault", .ok] = some (.error "server fault") := by rfl

theorem getUserLoop_replicate_err (rep : GitHubResponse) (msg : String)
    (hrep : rep.retryAfterHeader ≠ [] ∨ rep.statusCode = 500) :
    ∀ (k : Nat) (cap retries : Int), retries + k = cap + 1 →
      getUserLoop cap (List.replicate (k + 1) (.err (some rep) msg)) retries =
        some (.error msg) := by
  intro k
  induction k with
  | zero =>
    intro cap retries hk
    have hgt : retries > cap := by omega
    have hra : retryAfter (some rep) retries cap = (false, retries) := by
      unfold retryAfter
      rw [if_pos hgt]
    have hrep1 : List.replicate (0 + 1) (APIResult.err (some rep) msg) =
        [APIResult.err (some rep) msg] := rfl
    rw [hrep1, getUserLoop, hra]
  | succ k ih =>
    intro cap retries hk
    have hle : ¬retries > cap := by omega
    have hra : retryAfter (some rep) retries cap = (true, retries + 1) := by
      unfold retryAfter
      rw [if_neg hle]
      dsimp only
      rcases hh : rep.retryAfterHeader with _ | ⟨v, t⟩
      · have h500 : rep.statusCode = 500 := by
          rcases hrep with h | h
          · exact absurd hh h
          · exact h
        rw [if_neg (by simp [hh]), if_pos h500]
      · rw [if_pos (by simp [hh])]
    have hrep1 : List.replicate (k + 1 + 1) (APIResult.err (some rep) msg) =
        APIResult.err (some rep) msg ::
          List.replicate (k + 1) (APIResult.err (some rep) msg) := rfl
    rw [hrep1, getUserLoop, hra]
    exact ih cap (retries + 1) (by omega)

/-- C5 (amended): a failed call is retried exactly when the retry counter
has not passed the cap and the response is present and carries a
`Retry-After` header or a status code of exactly 500 — other 5xx-class
codes are not retried; and on a persistently retryable failure the loop
performs the initial attempt plus `cap + 1` retries (one more than the
configured cap) before returning the last error. -/
theorem retryAfter_policy :
    (∀ (rep : Option GitHubResponse) (cur cap : Int),
      (retryAfter rep cur cap).1 = true ↔
        (cur ≤ cap ∧ ∃ r, rep = some r ∧
          (r.retryAfterHeader ≠ [] ∨ r.statusCode = 500))) ∧
    (∀ (cap : Nat) (rep : GitHubResponse) (msg : String),
      rep.retryAfterHeader ≠ [] ∨ rep.statusCode = 500 →
      getUser (cap : Int) (List.replicate (cap + 2) (.err (some rep) msg)) =
        some (.error msg)) := by
  constructor
  · intro rep cur cap
    constructor
    · intro h
      unfold retryAfter at h
      by_cases hgt : cur > cap
      · rw [if_pos hgt] at h
        cases h
      · rw [if_neg hgt] at h
        rcases rep with _ | r
        · dsimp only at h
          cases h
        · dsimp only at h
          refine ⟨by omega, r, rfl, ?_⟩
          by_cases hh : r.retryAfterHeader ≠ []
          · exact Or.inl hh
          · rw [if_neg hh] at h
            by_cases h5 : r.statusCode = 500
            · exact Or.inr h5
            · rw [if_neg h5] at h
              cases h
    · rintro ⟨hle, r, rfl, hr⟩
      have hgt : ¬cur > cap := by omega
      unfold retryAfter
      rw [if_neg hgt]
      dsimp only
      by_cases hh : r.retryAfterHeader ≠ []
      · rw [if_pos hh]
      · rcases hr with h | h
        · exact absurd h hh
        · rw [if_neg hh, if_pos h]
  · intro cap rep msg hrep
    have h := getUserLoop_replicate_err rep msg hrep (cap + 1) (cap : Int) 0
      (by omega)
    rw [getUser]
    have hsz : cap + 2 = (cap + 1) + 1 := by omega
    rw [hsz]
    exact h

/-- Witness for C5's amended theorem at a concrete response and cap. -/
theorem retryAfter_policy_witness :
    ((retryAfter (some { retryAfterHeader := ["2"], statusCode := 403 }) 0 5).1
        = true ↔
      ((0 : Int) ≤ 5 ∧ ∃ r,
        (some { retryAfterHeader := ["2"], statusCode := 403 } : Option GitHubResponse)
            = some r ∧
          (r.retryAfterHeader ≠ [] ∨ r.statusCode = 500))) ∧
    getUser ((1 : Nat) : Int)
      (List.replicate (1 + 2)
        (.err (some { retryAfterHeader := [], statusCode := 500 }) "boom")) =
      some (.error "boom") :=
  ⟨retryAfter_policy.1 (some { retryAfterHeader := ["2"], statusCode := 403 })
      0 5,
   retryAfter_policy.2 1 { retryAfterHeader := [], statusCode := 500 } "boom"
     (Or.inr rfl)⟩

/-! ## Lemmas about the affiliation merge -/

theorem addNovel_mem (known emails acc : List String) (v : String) :
    v ∈ (addNovel known emails acc).2 ↔
      v ∈ acc ∨ (v ∈ emails ∧ v ∉ known) := by
  induction emails generalizing known acc with
  | nil => simp [addNovel]
  | cons e rest ih =>
    by_cases he : known.contains e = true
    · rw [addNovel, if_pos he, ih]
      have hek : e ∈ known := by simpa using he
      constructor
      · rintro (h | ⟨h1, h2⟩)
        · exact Or.inl h
        · exact Or.inr ⟨List.mem_cons_of_mem _ h1, h2⟩
      · rintro (h | ⟨h1, h2⟩)
        · exact Or.inl h
        · rcases List.mem_cons.mp h1 with rfl | h1
          · exact absurd hek h2
          · exact Or.inr ⟨h1, h2⟩
    · rw [addNovel, if_neg he, ih]
      have hek : e ∉ known := by simpa using he
      constructor
      · rintro (h | ⟨h1, h2⟩)
        · rcases List.mem_append.mp h with h | h
          · exact Or.inl h
          · have hve : v = e := by simpa using h
            subst hve
            exact Or.inr ⟨List.mem_cons_self _ _, hek⟩
        · have h2k : v ∉ known := fun hv => h2 (List.mem_append_left _ hv)
          exact Or.inr ⟨List.mem_cons_of_mem _ h1, h2k⟩
      · rintro (h | ⟨h1, h2⟩)
        · exact Or.inl (List.mem_append_left _ h)
        · by_cases hve : v = e
          · subst hve
            exact Or.inl (List.mem_append_right _ (by simp))
          · rcases List.mem_cons.mp h1 with h1e | h1
            · exact absurd h1e hve
            · refine Or.inr ⟨h1, fun hv => ?_⟩
              rcases List.mem_append.mp hv with hv | hv
              · exact h2 hv
              · exact hve (by simpa using hv)

theorem addNovel_inv (known emails acc : List String)
    (hsub : ∀ v ∈ acc, v ∈ known) (hnd : acc.Nodup) :
    (∀ v ∈ (addNovel known emails acc).2, v ∈ (addNovel known emails acc).1) ∧
    (addNovel known emails acc).2.Nodup := by
  induction emails generalizing known acc with
  | nil => simpa [addNovel] using ⟨hsub, hnd⟩
  | cons e rest ih =>
    by_cases he : known.contains e = true
    · rw [addNovel, if_pos he]
      exact ih known acc hsub hnd
    · rw [addNovel, if_neg he]
      have hek : e ∉ known := by simpa using he
      refine ih (known ++ [e]) (acc ++ [e]) ?_ ?_
      · intro v hv
        rcases List.mem_append.mp hv with hv | hv
        · exact List.mem_append_left _ (hsub v hv)
        · exact List.mem_append_right _ hv
      · refine List.Nodup.append hnd (List.nodup_singleton e) ?_
        intro a ha hb
        have hae : a = e := by simpa using hb
        exact hek (hae ▸ hsub a ha)

theorem mergeFromAffiliate_id (u : UserWrapper) (known : List String)
    (e : Option DevAffiliation)
    (h : ∀ a, e = some a → a.occurrences ≠ 1) :
    mergeFromAffiliate u known e = (u, known) := by
  cases e with
  | none => rfl
  | some a =>
    rw [mergeFromAffiliate, if_neg (h a rfl)]

theorem mergeFromAffiliate_inv (u : UserWrapper) (known : List String)
    (e : Option DevAffiliation)
    (hsub : ∀ v ∈ u.emails, v ∈ known) (hnd : u.emails.Nodup) :
    (∀ v ∈ (mergeFromAffiliate u known e).1.emails,
      v ∈ (mergeFromAffiliate u known e).2) ∧
    (mergeFromAffiliate u known e).1.emails.Nodup := by
  cases e with
  | none => exact ⟨hsub, hnd⟩
  | some a =>
    rw [mergeFromAffiliate]
    by_cases h1 : a.occurrences = 1
    · rw [if_pos h1]
      dsimp only
      exact addNovel_inv known a.emails u.emails hsub hnd
    · rw [if_neg h1]
      exact ⟨hsub, hnd⟩

/-- The C6 affiliation table: the user's display name maps to an ambiguous
entry (occurrence count 2), while the user's primary e-mail is one of the
e-mails of a different, unambiguous entry. -/
def c6Affs : Affiliates :=
  [("Alice Liddell",
    { occurrences := 2, name := "Alice Liddell", emails := ["e1@x"] }),
   ("a@b.c", { occurrences := 1, name := "Bob Harp", emails := ["e2@x"] })]

/-- C6 counterexample: the identity's name is found in the table with
occurrence count 2, so the claim forbids merging any affiliation e-mail;
the code's second lookup, keyed by the primary e-mail, still merges the
unambiguous e-mail-keyed entry's address `e2@x`. -/
theorem supplementWithAffiliates_ambiguous_name_still_merges :
    (supplementWithAffiliates
      { login := "x", name := "Alice Liddell", email := "a@b.c", emails := [] }
      [] c6Affs).1.emails = ["e2@x"] := by rfl

/-- C6 (amended): for the name-keyed entry, when the ambiguity guard passes
and the entry is unambiguous (`Occurrences == 1`) — and the second,
e-mail-keyed lookup finds nothing — the merged e-mail list is the old list
plus exactly the entry's e-mails not already known; when neither the
name-keyed nor the e-mail-keyed lookup yields an unambiguous entry, nothing
is merged at all; and the merge never duplicates an already-known e-mail:
it keeps the e-mail list duplicate-free whenever the known set covers it. -/
theorem supplementWithAffiliates_merge_spec :
    (∀ (u : UserWrapper) (known : List String) (affs : Affiliates)
        (a : DevAffiliation),
      (8 ≤ u.name.length ∨ u.name.toList.contains ' ') →
      affFind? affs u.name = some a → a.occurrences = 1 →
      (u.email = "" ∨ affFind? affs u.email = none) →
      ∀ v, v ∈ (supplementWithAffiliates u known affs).1.emails ↔
        (v ∈ u.emails ∨ (v ∈ a.emails ∧ v ∉ known))) ∧
    (∀ (u : UserWrapper) (known : List String) (affs : Affiliates),
      (∀ a, affFind? affs u.name = some a → a.occurrences ≠ 1) →
      (u.email = "" ∨
        ∀ a, affFind? affs u.email = some a → a.occurrences ≠ 1) →
      (supplementWithAffiliates u known affs).1.emails = u.emails) ∧
    (∀ (u : UserWrapper) (known : List String) (affs : Affiliates),
      (∀ v ∈ u.emails, v ∈ known) → u.emails.Nodup →
      (supplementWithAffiliates u known affs).1.emails.Nodup) := by
  refine ⟨fun u known affs a hg ha h1 he v => ?_, fun u known affs hn he => ?_,
    fun u known affs hsub hnd => ?_⟩
  · unfold supplementWithAffiliates
    rw [if_pos hg, ha, mergeFromAffiliate, if_pos h1]
    dsimp only
    rcases he with he | he
    · rw [if_neg (by simp [he])]
      exact addNovel_mem known a.emails u.emails v
    · by_cases hne : u.email ≠ ""
      · rw [if_pos hne, he, mergeFromAffiliate]
        exact addNovel_mem known a.emails u.emails v
      · rw [if_neg hne]
        exact addNovel_mem known a.emails u.emails v
  · unfold supplementWithAffiliates
    have hblock1 : (if 8 ≤ u.name.length ∨ u.name.toList.contains ' ' then
        mergeFromAffiliate u known (affFind? affs u.name)
      else (u, known)) = (u, known) := by
      by_cases hg : 8 ≤ u.name.length ∨ u.name.toList.contains ' '
      · rw [if_pos hg]
        exact mergeFromAffiliate_id u known _ hn
      · rw [if_neg hg]
    rw [hblock1]
    dsimp only
    rcases he with he | he
    · rw [if_neg (by simp [he])]
    · by_cases hne : u.email ≠ ""
      · rw [if_pos hne, mergeFromAffiliate_id u known _ he]
      · rw [if_neg hne]
  · unfold supplementWithAffiliates
    by_cases hg : 8 ≤ u.name.length ∨ u.name.toList.contains ' '
    · rw [if_pos hg]
      have hinv := mergeFromAffiliate_inv u known (affFind? affs u.name)
        hsub hnd
      rcases hp : mergeFromAffiliate u known (affFind? affs u.name) with ⟨u1, k1⟩
      rw [hp] at hinv
      dsimp only at hinv ⊢
      by_cases hne : u1.email ≠ ""
      · rw [if_pos hne]
        exact (mergeFromAffiliate_inv u1 k1 (affFind? affs u1.email)
          hinv.1 hinv.2).2
      · rw [if_neg hne]
        exact hinv.2
    · rw [if_neg hg]
      dsimp only
      by_cases hne : u.email ≠ ""
      · rw [if_pos hne]
        exact (mergeFromAffiliate_inv u known (affFind? affs u.email)
          hsub hnd).2
      · rw [if_neg hne]
        exact hnd

/-- The concrete unambiguous-merge scenario for the C6 witness. -/
def c6wAffs : Affiliates :=
  [("Alice Liddell",
    { occurrences := 1, name := "Alice Liddell", emails := ["e1@x"] })]

/-- The C6 witness user: guarded display name, no primary e-mail, one
already-known e-mail. -/
def c6wU : UserWrapper :=
  { login := "x", name := "Alice Liddell", email := "", emails := ["k@x"] }

/-- Witness for C6's amended theorem at concrete users and tables. -/
theorem supplementWithAffiliates_merge_spec_witness :
    ("e1@x" ∈ (supplementWithAffiliates c6wU ["k@x"] c6wAffs).1.emails ↔
      ("e1@x" ∈ c6wU.emails ∨
        ("e1@x" ∈ ["e1@x"] ∧ "e1@x" ∉ (["k@x"] : List String)))) ∧
    (supplementWithAffiliates
        { login := "x", name := "Zed", email := "", emails := ["k@x"] }
        [] []).1.emails = ["k@x"] ∧
    (supplementWithAffiliates c6wU ["k@x"] c6wAffs).1.emails.Nodup :=
  ⟨supplementWithAffiliates_merge_spec.1 c6wU ["k@x"] c6wAffs
      { occurrences := 1, name := "Alice Liddell", emails := ["e1@x"] }
      (by decide) (by rfl) rfl (Or.inl rfl) "e1@x",
   supplementWithAffiliates_merge_spec.2.1
      { login := "x", name := "Zed", email := "", emails := ["k@x"] } [] []
      (fun a h => Option.noConfusion h) (Or.inl rfl),
   supplementWithAffiliates_merge_spec.2.2 c6wU ["k@x"] c6wAffs
      (by intro v hv; simpa [c6wU] using hv) (by simp [c6wU])⟩

theorem generateReport_first_error :
    ∀ (pre : List ReportEntry) (msg : String) (post : List CacheEvent),
      generateReport (pre.map CacheEvent.entry ++ CacheEvent.err msg :: post) =
        (pre, some msg) := by
  intro pre msg post
  induction pre with
  | nil => rfl
  | cons e rest ih =>
    rw [List.map_cons, List.cons_append, generateReport, ih]

/-- C7: whenever some per-identity task surfaces an error, the run stops at
the first surfaced error: the report entries written are exactly those
received before it, the remaining identities' entries are abandoned, the
first error is the one printed to stderr, and the process exits with status
1 (non-zero). -/
theorem mainRun_first_error_prints_and_exits_nonzero :
    ∀ (pre : List ReportEntry) (msg : String) (post : List CacheEvent),
      mainRun (pre.map CacheEvent.entry ++ CacheEvent.err msg :: post) =
        (pre, some msg, 1) := by
  intro pre msg post
  rw [mainRun, generateReport_first_error]

/-- C8: every semaphore state reachable from empty pools through any
interleaving of `waitForAPI`/`doneWithAPI`/`waitForGit`/`doneWithGit` keeps
the API-channel occupancy at or below `api-max` and the git-channel
occupancy at or below `git-max`; since every remote call holds an API token
and every git subprocess holds a git token for its whole duration, no more
than `api-max` remote calls and `git-max` git subprocesses are ever in
flight simultaneously. -/
theorem pool_occupancy_bounded :
    ∀ (apiMax gitMax : Nat) (s : PoolState),
      PoolReachable apiMax gitMax s → s.api ≤ apiMax ∧ s.git ≤ gitMax := by
  intro apiMax gitMax s h
  induction h with
  | init => exact ⟨Nat.zero_le _, Nat.zero_le _⟩
  | acquireAPI hr hs ih =>
    rename_i t t'
    unfold waitForAPI at hs
    by_cases hlt : t.api < apiMax
    · rw [if_pos hlt] at hs
      cases hs
      exact ⟨hlt, ih.2⟩
    · rw [if_neg hlt] at hs
      cases hs
  | releaseAPI hr hs ih =>
    rename_i t t'
    unfold doneWithAPI at hs
    by_cases hlt : 0 < t.api
    · rw [if_pos hlt] at hs
      cases hs
      exact ⟨Nat.le_trans (Nat.sub_le _ _) ih.1, ih.2⟩
    · rw [if_neg hlt] at hs
      cases hs
  | acquireGit hr hs ih =>
    rename_i t t'
    unfold waitForGit at hs
    by_cases hlt : t.git < gitMax
    · rw [if_pos hlt] at hs
      cases hs
      exact ⟨ih.1, hlt⟩
    · rw [if_neg hlt] at hs
      cases hs
  | releaseGit hr hs ih =>
    rename_i t t'
    unfold doneWithGit at hs
    by_cases hlt : 0 < t.git
    · rw [if_pos hlt] at hs
      cases hs
      exact ⟨ih.1, Nat.le_trans (Nat.sub_le _ _) ih.2⟩
    · rw [if_neg hlt] at hs
      cases hs

/-- Witness for C8 at `api-max = 2`, `git-max = 10` and the state reached
by one completed `waitForAPI`. -/
theorem pool_occupancy_bounded_witness :
    ({ api := 1, git := 0 } : PoolState).api ≤ 2 ∧
    ({ api := 1, git := 0 } : PoolState).git ≤ 10 :=
  pool_occupancy_bounded 2 10 { api := 1, git := 0 }
    (PoolReachable.acquireAPI PoolReachable.init (by rfl))

/-- C9: every e-mail-adding operation of the identity pipeline preserves
the invariant that the e-mail list contains no empty string and no
duplicate: `uniqueStringSlice.append` itself, folding it over any list of
candidate addresses, the affiliation merge `loadFromAffiliates`, the
primary-e-mail addition of `loadFromGitHub`, and the directory-service
merge of `loadFromLDAP`. -/
theorem email_operations_preserve_invariant :
    (∀ (u : List String) (s : String), emailsInv u →
      emailsInv (uniqueStringSlice.append u s)) ∧
    (∀ (u l : List String), emailsInv u →
      emailsInv (l.foldl uniqueStringSlice.append u)) ∧
    (∀ (m : Member) (devs : List DevAffiliation), emailsInv m.emails →
      emailsInv (m.loadFromAffiliates devs).emails) ∧
    (∀ (m : Member) (fn fe : String), emailsInv m.emails →
      emailsInv (m.loadFromGitHub fn fe).emails) ∧
    (∀ (m : Member) (sam mail : String), emailsInv m.emails →
      emailsInv (m.loadFromLDAPMail sam mail).emails) := by
  have happ : ∀ (u : List String) (s : String), emailsInv u →
      emailsInv (uniqueStringSlice.append u s) := by
    intro u s h
    obtain ⟨h0, hnd⟩ := h
    unfold uniqueStringSlice.append
    by_cases hs : s = ""
    · rw [if_pos hs]
      exact ⟨h0, hnd⟩
    · rw [if_neg hs]
      by_cases hc : u.contains s = true
      · rw [if_pos hc]
        exact ⟨h0, hnd⟩
      · rw [if_neg hc]
        constructor
        · intro hmem
          rcases List.mem_append.mp hmem with hm | hm
          · exact h0 hm
          · have hm2 : ("" : String) = s := by simpa using hm
            exact hs hm2.symm
        · refine List.Nodup.append hnd (List.nodup_singleton s) ?_
          intro a ha hb
          have hae : a = s := by simpa using hb
          subst hae
          have hc2 : a ∉ u := by simpa using hc
          exact hc2 ha
  have hfold : ∀ (l u : List String), emailsInv u →
      emailsInv (l.foldl uniqueStringSlice.append u) := by
    intro l
    induction l with
    | nil => intro u h; exact h
    | cons x xs ih =>
      intro u h
      rw [List.foldl_cons]
      exact ih _ (happ u x h)
  refine ⟨happ, fun u l h => hfold l u h, fun m devs h => ?_,
    fun m fn fe h => ?_, fun m sam mail h => ?_⟩
  · unfold Member.loadFromAffiliates
    cases devs.find? (fun a => a.name == m.name && a.occurrences == 1) with
    | none => exact h
    | some a => exact hfold a.emails m.emails h
  · unfold Member.loadFromGitHub
    by_cases hn : m.name = ""
    · rw [if_pos hn]
      exact happ _ _ h
    · rw [if_neg hn]
      exact happ _ _ h
  · unfold Member.loadFromLDAPMail
    exact happ _ _ h

/-- A named member for the C9 witness. -/
def c9wNamed : Member :=
  { login := "l", name := "Nm", ldapLogin := "", emails := ["a@x"],
    employed := [], commits := [] }

/-- A nameless member for the C9 witness. -/
def c9wBlank : Member :=
  { login := "l", name := "", ldapLogin := "", emails := ["a@x"],
    employed := [], commits := [] }

/-- The affiliation entry of the C9 witness, carrying an empty string and a
duplicate (which the appends skip). -/
def c9wDev : DevAffiliation :=
  { occurrences := 1, name := "Nm", emails := ["", "b@x", "b@x"] }

/-- Witness for C9 at concrete members and inputs. -/
theorem email_operations_preserve_invariant_witness :
    emailsInv (uniqueStringSlice.append ["a@x"] "b@x") ∧
    emailsInv ((["b@x", "a@x"]).foldl uniqueStringSlice.append ["a@x"]) ∧
    emailsInv (c9wNamed.loadFromAffiliates [c9wDev]).emails ∧
    emailsInv (c9wBlank.loadFromGitHub "N" "p@x").emails ∧
    emailsInv (c9wBlank.loadFromLDAPMail "sam" "m@x").emails :=
  have hinv : emailsInv ["a@x"] := by
    refine ⟨?_, ?_⟩ <;> decide
  ⟨email_operations_preserve_invariant.1 ["a@x"] "b@x" hinv,
   email_operations_preserve_invariant.2.1 ["a@x"] ["b@x", "a@x"] hinv,
   email_operations_preserve_invariant.2.2.1 c9wNamed [c9wDev] hinv,
   email_operations_preserve_invariant.2.2.2.1 c9wBlank "N" "p@x" hinv,
   email_operations_preserve_invariant.2.2.2.2 c9wBlank "sam" "m@x" hinv⟩

/-- C10: for every stream of members, the stdout CSV receives the header
and one row per member, while the on-disk report CSV receives the header
and exactly the rows of the members with at least one retained commit (the
`len(m.Commits) == 0` rows are skipped). -/
theorem writeReport_rows :
    ∀ members : List Member,
      writeReport members =
        (csvReportHeader :: members.map csvFields,
         csvReportHeader ::
           (members.filter (fun m => !m.commits.isEmpty)).map csvFields) := by
  intro members
  unfold writeReport
  have h : ∀ ms : List Member, writeReportLoop ms =
      (ms.map csvFields,
        (ms.filter (fun m => !m.commits.isEmpty)).map csvFields) := by
    intro ms
    induction ms with
    | nil => rfl
    | cons m rest ih =>
      rw [writeReportLoop, ih]
      dsimp only
      by_cases hc : m.commits.length = 0
      · have hemp : m.commits.isEmpty = true := by
          cases hcm : m.commits with
          | nil => rfl
          | cons c cs => rw [hcm] at hc; simp at hc
        rw [if_pos hc]
        simp [List.filter_cons, hemp]
      · have hemp : m.commits.isEmpty = false := by
          cases hcm : m.commits with
          | nil => rw [hcm] at hc; simp at hc
          | cons c cs => rfl
        rw [if_neg hc]
        simp [List.filter_cons, hemp]
  rw [h]

end GithubImpact
